import Mathlib

/-!
A verification development for the in-memory text-editing engine of the
snyfter3 repository (files src/editor.rs and src/block_selection.rs).

Embedding conventions:
* A document (Rust helix_core::Rope) is a List Char; rope positions are
  char indices.  Documents are assumed to use plain LF line endings, so
  ropey line splitting is modelled as splitting on the newline character.
* The external crate function unicode_width::UnicodeWidthChar::width(ch)
  .unwrap_or(1) is modelled as an abstract parameter uwidth : Char → Nat;
  concrete evaluations instantiate it with uwOne (constantly 1), which is
  the value of the Rust expression on all ASCII printable characters.
* Grapheme boundaries (helix_core prev/next_grapheme_boundary) are
  modelled at char granularity, which is exact for text whose every char
  forms its own grapheme cluster (all the inputs considered here).
* Fallible rope indexing (ropey panics when a line index is out of
  bounds) is modelled with Option: none models a panic.
-/

namespace Snyfter

/-- Tab width constant from block_selection.rs. -/
def TAB_WIDTH : Nat := 4

/-- Model of unicode_width on the characters used in concrete runs:
every ASCII printable character has display width 1. -/
def uwOne : Char → Nat := fun _ => 1

/-- Width of one char inside the visual-column walks of
block_selection.rs: a tab advances to the next multiple of TAB_WIDTH,
any other char contributes its unicode width (defaulted to 1). -/
def chWidth (uwidth : Char → Nat) (cv : Nat) (c : Char) : Nat :=
  if c = '\t' then TAB_WIDTH - cv % TAB_WIDTH else uwidth c

/-- Loop of visual_col_to_char_idx (block_selection.rs lines 110-130):
walks the line, stopping once the accumulated visual column reaches the
target or at a line terminator, and returns the char index reached. -/
def visualColToCharIdxAux (uwidth : Char → Nat) :
    List Char → Nat → Nat → Nat → Nat
  | [], _, _, idx => idx
  | c :: rest, vcol, cv, idx =>
    if cv ≥ vcol then idx
    else if c = '\n' ∨ c = '\r' then idx
    else visualColToCharIdxAux uwidth rest vcol (cv + chWidth uwidth cv c) (idx + 1)

/-- block_selection.rs visual_col_to_char_idx. -/
def visual_col_to_char_idx (uwidth : Char → Nat) (line : List Char)
    (visual_col : Nat) : Nat :=
  visualColToCharIdxAux uwidth line visual_col 0 0

/-- Loop of char_idx_to_visual_col (block_selection.rs lines 132-152):
walks the line up to the given char index, accumulating visual width,
stopping early at a line terminator. -/
def charIdxToVisualColAux (uwidth : Char → Nat) :
    List Char → Nat → Nat → Nat → Nat
  | [], _, _, cv => cv
  | c :: rest, cidx, idx, cv =>
    if idx ≥ cidx then cv
    else if c = '\n' ∨ c = '\r' then cv
    else charIdxToVisualColAux uwidth rest cidx (idx + 1) (cv + chWidth uwidth cv c)

/-- block_selection.rs char_idx_to_visual_col. -/
def char_idx_to_visual_col (uwidth : Char → Nat) (line : List Char)
    (char_idx : Nat) : Nat :=
  charIdxToVisualColAux uwidth line char_idx 0 0

/-- Effective line length as computed throughout editor.rs: the char
count of the line minus a trailing newline when one is present. -/
def effLen (line : List Char) : Nat :=
  if line.getLast? = some '\n' then line.length - 1 else line.length

/-- Ropey line decomposition of an LF document: every line except the
last keeps its trailing newline, and a document ending in a newline has
a final empty line.  (rope.len_lines, rope.line, rope.line_to_char are
derived from this decomposition.) -/
def ropeLines : List Char → List (List Char)
  | [] => [[]]
  | c :: rest =>
    if c = '\n' then ['\n'] :: ropeLines rest
    else
      match ropeLines rest with
      | [] => [[c]]
      | l :: ls => (c :: l) :: ls

/-- rope.len_lines. -/
def lenLines (t : List Char) : Nat := (ropeLines t).length

/-- rope.line(i) (empty for an out-of-bounds index; every use below is
guarded the way the Rust code guards it). -/
def getLine (t : List Char) (i : Nat) : List Char := (ropeLines t).getD i []

/-- rope.line_to_char(i) for in-bounds i: chars occurring before line i. -/
def lineToChar (t : List Char) (i : Nat) : Nat :=
  (((ropeLines t).take i).map List.length).sum

/-- rope.line_to_char with ropey's panic behaviour: ropey panics when
line_idx > len_lines (none models the panic). -/
def lineToCharChecked (t : List Char) (i : Nat) : Option Nat :=
  if i > lenLines t then none else some (lineToChar t i)

/-- rope.char_to_line(pos) for pos ≤ len_chars: the number of newlines
among the chars before pos. -/
def charToLine (t : List Char) (pos : Nat) : Nat := (t.take pos).count '\n'

/-- The `text.pop()` applied to a line string in copy_selection when it
ends with a newline. -/
def popNl (l : List Char) : List Char :=
  if l.getLast? = some '\n' then l.dropLast else l

/-- Grid position from block_selection.rs (line, column). -/
structure Position where
  line : Nat
  column : Nat
deriving DecidableEq, Repr

/-- BlockSelection from block_selection.rs: anchor/cursor grid
positions plus their precomputed visual columns. -/
structure BlockSelection where
  anchor : Position
  cursor : Position
  anchor_visual_col : Nat
  cursor_visual_col : Nat
deriving DecidableEq, Repr

namespace BlockSelection

/-- BlockSelection::new. -/
def new (anchor_line anchor_col : Nat) : BlockSelection :=
  ⟨⟨anchor_line, anchor_col⟩, ⟨anchor_line, anchor_col⟩, anchor_col, anchor_col⟩

/-- BlockSelection::extend_to. -/
def extend_to (bs : BlockSelection) (line col visual_col : Nat) : BlockSelection :=
  { bs with cursor := ⟨line, col⟩, cursor_visual_col := visual_col }

/-- BlockSelection::normalized. -/
def normalized (bs : BlockSelection) : Position × Position :=
  (⟨min bs.anchor.line bs.cursor.line,
    min bs.anchor_visual_col bs.cursor_visual_col⟩,
   ⟨max bs.anchor.line bs.cursor.line,
    max bs.anchor_visual_col bs.cursor_visual_col⟩)

/-- BlockSelection::iter_lines: the triples (line, start visual col,
end visual col) for each line of the normalized rectangle. -/
def iter_lines (bs : BlockSelection) : List (Nat × Nat × Nat) :=
  (List.range' (bs.normalized).1.line
      ((bs.normalized).2.line - (bs.normalized).1.line + 1)).map
    (fun line => (line, (bs.normalized).1.column, (bs.normalized).2.column))

end BlockSelection

/-- The visual-width loop at the top of the block branch of
copy_selection (editor.rs lines 911-919): total visual width of a line
string (which no longer contains its newline). -/
def visualWidth (uwidth : Char → Nat) : List Char → Nat → Nat
  | [], cv => cv
  | c :: rest, cv => visualWidth uwidth rest (cv + chWidth uwidth cv c)

/-- The extraction loop of copy_selection (editor.rs lines 932-956):
returns the selected chars (with a partially covered tab turned into
spaces) together with the final value of current_visual. -/
def copyExtract (uwidth : Char → Nat) (start_col end_col : Nat) :
    List Char → Nat → List Char × Nat
  | [], cv => ([], cv)
  | c :: rest, cv =>
    if cv ≥ end_col then ([], cv)
    else
      let w := chWidth uwidth cv c
      let piece :=
        if cv + w > start_col then
          if cv < start_col then
            List.replicate (min (cv + w) end_col - start_col) ' '
          else [c]
        else []
      let r := copyExtract uwidth start_col end_col rest (cv + w)
      (piece ++ r.1, r.2)

/-- One line of the block branch of copy_selection (editor.rs lines
910-965): leading padding when the selection starts beyond the content,
the extracted text, and trailing padding when it extends beyond. -/
def copyBlockLine (uwidth : Char → Nat) (start_col end_col : Nat)
    (line_text : List Char) : List Char :=
  let vw := visualWidth uwidth line_text 0
  let pre := if start_col > vw then List.replicate (start_col - vw) ' ' else []
  let er := copyExtract uwidth start_col end_col line_text 0
  let post :=
    if end_col > er.2 ∧ er.2 ≥ start_col then
      List.replicate (end_col - er.2) ' '
    else []
  pre ++ er.1 ++ post

/-- The text assembled by the block branch of copy_selection (editor.rs
lines 890-969): one string per line of the rectangle (missing lines
treated as empty), joined with newlines. -/
def copy_selection_block (uwidth : Char → Nat) (t : List Char)
    (bs : BlockSelection) : List Char :=
  List.intercalate ['\n']
    (bs.iter_lines.map (fun trip =>
      let line_text :=
        if trip.1 < lenLines t then popNl (getLine t trip.1) else []
      copyBlockLine uwidth trip.2.1 trip.2.2 line_text))

/-- Split on newline chars (n newlines give n+1 pieces), the base of
Rust str::lines. -/
def splitNl : List Char → List (List Char)
  | [] => [[]]
  | c :: rest =>
    if c = '\n' then [] :: splitNl rest
    else
      match splitNl rest with
      | [] => [[c]]
      | l :: ls => (c :: l) :: ls

/-- The \r-stripping of Rust str::lines applied to one piece. -/
def stripCr (l : List Char) : List Char :=
  if l.getLast? = some '\r' then l.dropLast else l

/-- Rust str::lines: pieces between newlines, without a final empty
piece for a trailing newline, each piece stripped of a trailing \r. -/
def rustLines (t : List Char) : List (List Char) :=
  if t = [] then []
  else
    (if t.getLast? = some '\n' then (splitNl t).dropLast else splitNl t).map
      stripCr

/-- The per-line removal of the block branch of cut_selection
(editor.rs lines 1006-1022): chars between the char indices of the two
visual bounds are removed from the line. -/
def cutLineRange (uwidth : Char → Nat) (start_col end_col : Nat)
    (line : List Char) : List Char :=
  let start_char := min (visual_col_to_char_idx uwidth line start_col) line.length
  let end_char := min (visual_col_to_char_idx uwidth line end_col) line.length
  if start_char < end_char then line.take start_char ++ line.drop end_char
  else line

/-- One iteration of the cut loop (editor.rs lines 1001-1023): skips an
out-of-range line index, otherwise rewrites that line. -/
def cutStep (uwidth : Char → Nat) (start_col end_col : Nat)
    (lines : List (List Char)) (line_idx : Nat) : List (List Char) :=
  match lines.get? line_idx with
  | none => lines
  | some line =>
    let start_char := min (visual_col_to_char_idx uwidth line start_col) line.length
    let end_char := min (visual_col_to_char_idx uwidth line end_col) line.length
    if start_char < end_char then
      lines.set line_idx (line.take start_char ++ line.drop end_char)
    else lines

/-- The lines of the document after the block branch of cut_selection
(editor.rs lines 984-1027): the rectangle is processed bottom-to-top
over the Rust str::lines decomposition. -/
def cut_selection_block_lines (uwidth : Char → Nat) (t : List Char)
    (bs : BlockSelection) : List (List Char) :=
  bs.iter_lines.reverse.foldl
    (fun lines trip => cutStep uwidth trip.2.1 trip.2.2 lines trip.1)
    (rustLines t)

/-- The document text after the block branch of cut_selection: the cut
lines rejoined with newlines. -/
def cut_selection_block_text (uwidth : Char → Nat) (t : List Char)
    (bs : BlockSelection) : List Char :=
  List.intercalate ['\n'] (cut_selection_block_lines uwidth t bs)

/-- BlockSelection::to_selection (block_selection.rs lines 61-97) with
ropey's panic behaviour made explicit: the loop stops at the first
line index at or past len_lines; each surviving line contributes one
range clamped to the line; when no range was produced the fallback
builds a point at the cursor via rope.line_to_char, which panics
(modelled by none) when the cursor line exceeds len_lines. -/
def to_selection (uwidth : Char → Nat) (t : List Char)
    (bs : BlockSelection) : Option (List (Nat × Nat)) :=
  let trips := bs.iter_lines.takeWhile (fun trip => trip.1 < lenLines t)
  let ranges := trips.filterMap (fun trip =>
    let line := getLine t trip.1
    let line_start := lineToChar t trip.1
    let start_char := min (visual_col_to_char_idx uwidth line trip.2.1) line.length
    let end_char := min (visual_col_to_char_idx uwidth line trip.2.2) line.length
    let start := line_start + start_char
    let stop := line_start + end_char
    if start ≤ stop then some (start, stop) else none)
  if ranges = [] then
    (lineToCharChecked t bs.cursor.line).map
      (fun lc => [(lc + bs.cursor.column, lc + bs.cursor.column)])
  else some ranges

/-- Viewport height hard-coded in follow_cursor. -/
def VIEWPORT_HEIGHT : Nat := 20

/-- Viewport width hard-coded in follow_cursor. -/
def VIEWPORT_WIDTH : Nat := 80

/-- TextEditor state (editor.rs lines 14-24).  The helix Selection is a
single range (selAnchor, head); Selection::point sets both to the same
offset. -/
structure TextEditor where
  text : List Char
  selAnchor : Nat
  head : Nat
  cursor_pos : Nat × Nat
  scroll_x : Nat
  scroll_y : Nat
  selection_anchor : Option Nat
  virtual_cursor_col : Option Nat
  block_selection : Option BlockSelection
  potential_block_start : Option (Nat × Nat)
deriving DecidableEq, Repr

/-- helix Range::cursor at char granularity: one before the head when
the range faces forward, otherwise the head. -/
def rangeCursor (anchor head : Nat) : Nat :=
  if head > anchor then head - 1 else head

/-- TextEditor::from_text (and ::new for the empty document). -/
def from_text (s : List Char) : TextEditor :=
  ⟨s, 0, 0, (0, 0), 0, 0, none, none, none, none⟩

/-- TextEditor::pos_to_coords. -/
def pos_to_coords (t : List Char) (pos : Nat) : Nat × Nat :=
  let line := charToLine t pos
  (line, pos - lineToChar t line)

/-- TextEditor::follow_cursor (editor.rs lines 573-590).  The two
increasing branches use plain usize subtraction in Rust; for the
padding of 2 used by every caller the guards keep them non-negative,
so Nat truncated subtraction coincides. -/
def follow_cursor (e : TextEditor) (cursor_x cursor_y padding : Nat) :
    TextEditor :=
  let sy :=
    if cursor_y < e.scroll_y + padding then cursor_y - padding
    else if cursor_y ≥ e.scroll_y + VIEWPORT_HEIGHT - padding then
      cursor_y + padding + 1 - VIEWPORT_HEIGHT
    else e.scroll_y
  let sx :=
    if cursor_x < e.scroll_x + padding then cursor_x - padding
    else if cursor_x ≥ e.scroll_x + VIEWPORT_WIDTH - padding then
      cursor_x + padding + 1 - VIEWPORT_WIDTH
    else e.scroll_x
  { e with scroll_x := sx, scroll_y := sy }

/-- TextEditor::update_cursor_position (editor.rs lines 556-571). -/
def update_cursor_position (e : TextEditor) : TextEditor :=
  let pos := rangeCursor e.selAnchor e.head
  let rc := pos_to_coords e.text pos
  let display_col := e.virtual_cursor_col.getD rc.2
  follow_cursor { e with cursor_pos := (rc.1, display_col) } display_col rc.1 2

/-- The plain-movement tail of TextEditor::move_cursor_left (editor.rs
lines 249-264): step one char left within the line, then clear the
virtual column. -/
def moveLeftNormal (e : TextEditor) : TextEditor :=
  let pos := e.head
  let line := charToLine e.text pos
  let line_start := lineToChar e.text line
  if pos > line_start then
    let new_pos := max (pos - 1) line_start
    let e1 := update_cursor_position
      { e with selAnchor := new_pos, head := new_pos }
    { e1 with virtual_cursor_col := none }
  else e

/-- TextEditor::move_cursor_left (editor.rs lines 217-265). -/
def move_cursor_left (e : TextEditor) : TextEditor :=
  match e.virtual_cursor_col with
  | some virtual_col =>
    if virtual_col > 0 then
      let pos := e.head
      let line := charToLine e.text pos
      let e1 := { e with virtual_cursor_col := some (virtual_col - 1),
                         cursor_pos := (line, virtual_col - 1) }
      let line_start := lineToChar e1.text line
      let effective_len := effLen (getLine e1.text line)
      if virtual_col - 1 ≤ effective_len then
        let new_pos := line_start + min (virtual_col - 1) effective_len
        { e1 with selAnchor := new_pos, head := new_pos }
      else e1
    else moveLeftNormal e
  | none => moveLeftNormal e

/-- TextEditor::move_cursor_right (editor.rs lines 267-308): always
records the new virtual column, and keeps the selection at the line
end when the new column is in virtual space. -/
def move_cursor_right (e : TextEditor) : TextEditor :=
  let pos := e.head
  let line := charToLine e.text pos
  let line_start := lineToChar e.text line
  let effective_len := effLen (getLine e.text line)
  let current_col := e.virtual_cursor_col.getD (pos - line_start)
  let new_col := current_col + 1
  let e1 := { e with virtual_cursor_col := some new_col,
                     cursor_pos := (line, new_col) }
  if new_col ≤ effective_len then
    if line_start + new_col ≤ e1.text.length then
      { e1 with selAnchor := line_start + new_col,
                head := line_start + new_col }
    else e1
  else
    { e1 with selAnchor := line_start + effective_len,
              head := line_start + effective_len }

/-- TextEditor::move_cursor_up (editor.rs lines 310-346). -/
def move_cursor_up (e : TextEditor) : TextEditor :=
  let pos := e.head
  let line := charToLine e.text pos
  if line > 0 then
    let virtual_col := e.virtual_cursor_col.getD (pos - lineToChar e.text line)
    let e1 := { e with virtual_cursor_col := some virtual_col }
    let new_line := line - 1
    let new_line_start := lineToChar e1.text new_line
    let effective_len := effLen (getLine e1.text new_line)
    let new_pos := new_line_start + min virtual_col effective_len
    update_cursor_position { e1 with selAnchor := new_pos, head := new_pos }
  else e

/-- TextEditor::move_cursor_down (editor.rs lines 348-385). -/
def move_cursor_down (e : TextEditor) : TextEditor :=
  let pos := e.head
  let line := charToLine e.text pos
  let max_line := lenLines e.text - 1
  if line < max_line then
    let virtual_col := e.virtual_cursor_col.getD (pos - lineToChar e.text line)
    let e1 := { e with virtual_cursor_col := some virtual_col }
    let new_line := line + 1
    let new_line_start := lineToChar e1.text new_line
    let effective_len := effLen (getLine e1.text new_line)
    let new_pos := new_line_start + min virtual_col effective_len
    update_cursor_position { e1 with selAnchor := new_pos, head := new_pos }
  else e

/-- The plain-insertion tail of TextEditor::insert_char (editor.rs
lines 495-510). -/
def insertCharNormal (e : TextEditor) (ch : Char) : TextEditor :=
  let pos := rangeCursor e.selAnchor e.head
  let text1 := e.text.take pos ++ [ch] ++ e.text.drop pos
  let e1 := update_cursor_position
    { e with text := text1, selAnchor := pos + 1, head := pos + 1 }
  { e1 with virtual_cursor_col := none }

/-- TextEditor::insert_char (editor.rs lines 450-511).  In the virtual
branch Rust inserts the spaces one by one, all at insert_pos, then the
char after them; the net effect is the single splice written here. -/
def insert_char (e0 : TextEditor) (ch : Char) : TextEditor :=
  let e := { e0 with block_selection := none }
  match e.virtual_cursor_col with
  | some virtual_col =>
    let pos := e.head
    let line := charToLine e.text pos
    let line_start := lineToChar e.text line
    let effective_len := effLen (getLine e.text line)
    if virtual_col > effective_len then
      let spaces_needed := virtual_col - effective_len
      let insert_pos := line_start + effective_len
      let text1 := e.text.take insert_pos ++
        List.replicate spaces_needed ' ' ++ [ch] ++ e.text.drop insert_pos
      let new_pos := insert_pos + spaces_needed + 1
      update_cursor_position
        { e with text := text1, selAnchor := new_pos, head := new_pos,
                 virtual_cursor_col := none }
    else insertCharNormal e ch
  | none => insertCharNormal e ch

/-- TextEditor::delete_char_backward (editor.rs lines 517-534). -/
def delete_char_backward (e : TextEditor) : TextEditor × Bool :=
  let pos := rangeCursor e.selAnchor e.head
  if pos > 0 then
    let start := pos - 1
    let text1 := e.text.take start ++ e.text.drop pos
    let e1 := update_cursor_position
      { e with text := text1, selAnchor := start, head := start }
    ({ e1 with virtual_cursor_col := none }, true)
  else (e, false)

/-- TextEditor::delete_char_forward (editor.rs lines 536-553). -/
def delete_char_forward (e : TextEditor) : TextEditor × Bool :=
  let pos := rangeCursor e.selAnchor e.head
  if pos < e.text.length then
    let stop := pos + 1
    let text1 := e.text.take pos ++ e.text.drop stop
    let e1 := update_cursor_position
      { e with text := text1, selAnchor := pos, head := pos }
    ({ e1 with virtual_cursor_col := none }, true)
  else (e, false)

/-- TextEditor::set_text (editor.rs lines 622-628): replaces the rope
and resets selection, cursor position and both scroll offsets, and
touches nothing else. -/
def set_text (e : TextEditor) (s : List Char) : TextEditor :=
  { e with text := s, selAnchor := 0, head := 0, cursor_pos := (0, 0),
           scroll_x := 0, scroll_y := 0 }

theorem effLen_le_length (line : List Char) : effLen line ≤ line.length := by
  unfold effLen
  split <;> omega

@[simp]
theorem update_cursor_position_text (e : TextEditor) :
    (update_cursor_position e).text = e.text := rfl

@[simp]
theorem update_cursor_position_head (e : TextEditor) :
    (update_cursor_position e).head = e.head := rfl

@[simp]
theorem update_cursor_position_selAnchor (e : TextEditor) :
    (update_cursor_position e).selAnchor = e.selAnchor := rfl

@[simp]
theorem update_cursor_position_virtual (e : TextEditor) :
    (update_cursor_position e).virtual_cursor_col = e.virtual_cursor_col := rfl

@[simp]
theorem update_cursor_position_block (e : TextEditor) :
    (update_cursor_position e).block_selection = e.block_selection := rfl

/-- C10.  set_text replaces the document and resets selection, cursor
position and both scroll offsets to zero, while virtual_cursor_col,
selection_anchor, block_selection and potential_block_start keep their
previous values (so state established against the old document
survives the replacement and now refers to the new text). -/
theorem set_text_resets_and_preserves (e : TextEditor) (s : List Char) :
    (set_text e s).text = s
    ∧ (set_text e s).selAnchor = 0
    ∧ (set_text e s).head = 0
    ∧ (set_text e s).cursor_pos = (0, 0)
    ∧ (set_text e s).scroll_x = 0
    ∧ (set_text e s).scroll_y = 0
    ∧ (set_text e s).virtual_cursor_col = e.virtual_cursor_col
    ∧ (set_text e s).selection_anchor = e.selection_anchor
    ∧ (set_text e s).block_selection = e.block_selection
    ∧ (set_text e s).potential_block_start = e.potential_block_start :=
  ⟨rfl, rfl, rfl, rfl, rfl, rfl, rfl, rfl, rfl, rfl⟩

/-- C7.  When the active virtual column v exceeds the effective length
L of the cursor line, insert_char splices exactly v - L spaces at the
line's effective end followed by the typed char, puts the cursor (a
point selection) immediately after the inserted char, and clears the
virtual column. -/
theorem insert_char_virtual_space (e : TextEditor) (ch : Char) (v : Nat)
    (hv : e.virtual_cursor_col = some v)
    (hgt : v > effLen (getLine e.text (charToLine e.text e.head))) :
    (insert_char e ch).text =
      e.text.take (lineToChar e.text (charToLine e.text e.head) +
          effLen (getLine e.text (charToLine e.text e.head))) ++
        List.replicate (v - effLen (getLine e.text (charToLine e.text e.head))) ' ' ++
        [ch] ++
        e.text.drop (lineToChar e.text (charToLine e.text e.head) +
          effLen (getLine e.text (charToLine e.text e.head)))
    ∧ (insert_char e ch).head =
        lineToChar e.text (charToLine e.text e.head) +
          effLen (getLine e.text (charToLine e.text e.head)) +
          (v - effLen (getLine e.text (charToLine e.text e.head))) + 1
    ∧ (insert_char e ch).selAnchor = (insert_char e ch).head
    ∧ (insert_char e ch).virtual_cursor_col = none := by
  unfold insert_char
  simp only [hv]
  rw [if_pos hgt]
  refine ⟨rfl, rfl, rfl, rfl⟩

/-- C8.  With a virtual column v active and a line below the cursor
line, move_cursor_down lands the selection point at column
min v (effective length of the target line) of the target line, and
retains the virtual column v. -/
theorem move_cursor_down_virtual (e : TextEditor) (v : Nat)
    (hv : e.virtual_cursor_col = some v)
    (hline : charToLine e.text e.head < lenLines e.text - 1) :
    (move_cursor_down e).head =
      lineToChar e.text (charToLine e.text e.head + 1) +
        min v (effLen (getLine e.text (charToLine e.text e.head + 1)))
    ∧ (move_cursor_down e).selAnchor = (move_cursor_down e).head
    ∧ (move_cursor_down e).virtual_cursor_col = some v := by
  unfold move_cursor_down
  rw [if_pos hline]
  refine ⟨?_, ?_, ?_⟩ <;> simp [hv]

theorem visualWidth_clean (uwidth : Char → Nat) (l : List Char) (cv : Nat)
    (hclean : ∀ c ∈ l, c ≠ '\t' ∧ uwidth c = 1) :
    visualWidth uwidth l cv = cv + l.length := by
  induction l generalizing cv with
  | nil => simp [visualWidth]
  | cons c rest ih =>
    obtain ⟨ht, hw⟩ := hclean c (by simp)
    have hwc : chWidth uwidth cv c = 1 := by simp [chWidth, ht, hw]
    unfold visualWidth
    rw [hwc, ih (cv + 1) (fun x hx => hclean x (by simp [hx]))]
    simp
    omega

/-- Closed form of the copy extraction loop on width-1 tab-free text:
it keeps the chars whose visual position lies in [start_col, end_col)
and stops with current_visual = max cv (min (cv + length) end_col). -/
theorem copyExtract_clean (uwidth : Char → Nat) (s e : Nat) (l : List Char)
    (cv : Nat) (hclean : ∀ c ∈ l, c ≠ '\t' ∧ uwidth c = 1) :
    copyExtract uwidth s e l cv =
      ((l.drop (s - cv)).take (e - max s cv),
        max cv (min (cv + l.length) e)) := by
  induction l generalizing cv with
  | nil =>
    simp only [copyExtract, List.drop_nil, List.take_nil, List.length_nil,
      Nat.add_zero]
    have : max cv (min cv e) = cv := by omega
    rw [this]
  | cons c rest ih =>
    obtain ⟨ht, hw⟩ := hclean c (by simp)
    have hwc : chWidth uwidth cv c = 1 := by simp [chWidth, ht, hw]
    by_cases hcv : cv ≥ e
    · have h1 : e - max s cv = 0 := by omega
      have h2 : max cv (min (cv + (c :: rest).length) e) = cv := by
        simp only [List.length_cons]
        omega
      simp [copyExtract, hcv, h1, h2]
    · have hrec := ih (cv + 1) (fun x hx => hclean x (by simp [hx]))
      simp only [copyExtract, ge_iff_le, if_neg (by omega : ¬ e ≤ cv), hwc,
        hrec]
      by_cases hs : s ≤ cv
      · have hp1 : cv + 1 > s := by omega
        have hp2 : ¬ cv < s := by omega
        simp only [if_pos hp1, if_neg hp2]
        have h3 : s - cv = 0 := by omega
        have h4 : s - (cv + 1) = 0 := by omega
        have h5 : max s (cv + 1) = cv + 1 := by omega
        have h6 : max s cv = cv := by omega
        obtain ⟨m, hm⟩ : ∃ m, e - cv = m + 1 := ⟨e - cv - 1, by omega⟩
        have h7 : e - (cv + 1) = m := by omega
        have h8 : max (cv + 1) (min (cv + 1 + rest.length) e) =
            max cv (min (cv + (c :: rest).length) e) := by
          simp only [List.length_cons]
          omega
        simp only [h3, h4, h5, h6, h7, hm, h8, List.drop_zero,
          List.take_succ_cons, List.cons_append, List.nil_append]
      · have hp1 : ¬ cv + 1 > s := by omega
        simp only [if_neg hp1]
        have h4 : max s (cv + 1) = s := by omega
        have h6 : max s cv = s := by omega
        obtain ⟨m, hm⟩ : ∃ m, s - cv = m + 1 := ⟨s - cv - 1, by omega⟩
        have h7 : s - (cv + 1) = m := by omega
        have h8 : max (cv + 1) (min (cv + 1 + rest.length) e) =
            max cv (min (cv + (c :: rest).length) e) := by
          simp only [List.length_cons]
          omega
        simp only [h4, h6, h7, hm, h8, List.drop_succ_cons,
          List.nil_append]

/-- Closed form of one copied block line on width-1 tab-free text: a
line reaching start_col is cropped to the rectangle and right-padded
with spaces; a shorter line degenerates to start_col - length spaces. -/
theorem copyBlockLine_clean (uwidth : Char → Nat) (s e : Nat)
    (l : List Char) (hse : s ≤ e)
    (hclean : ∀ c ∈ l, c ≠ '\t' ∧ uwidth c = 1) :
    copyBlockLine uwidth s e l =
      if l.length < s then List.replicate (s - l.length) ' '
      else (l.drop s).take (e - s) ++ List.replicate (e - min l.length e) ' ' := by
  unfold copyBlockLine
  rw [visualWidth_clean uwidth l 0 hclean, copyExtract_clean uwidth s e l 0 hclean]
  simp only [Nat.zero_add, Nat.max_zero, Nat.zero_max, Nat.sub_zero]
  by_cases hlt : l.length < s
  · have h1 : s > l.length := hlt
    have hdrop : l.drop s = [] := List.drop_eq_nil_of_le (by omega)
    have h3 : min l.length e = l.length := by omega
    have h4 : ¬ (e > l.length ∧ l.length ≥ s) := by omega
    rw [h3]
    simp only [if_pos h1, if_neg h4, if_pos hlt, hdrop, List.take_nil,
      List.append_nil]
  · have h1 : ¬ s > l.length := by omega
    have hmin : min l.length e ≥ s := by omega
    simp only [if_neg h1, if_neg hlt, List.nil_append]
    by_cases hpad : e > min l.length e
    · simp only [if_pos (And.intro hpad hmin)]
    · have hz : e - min l.length e = 0 := by omega
      simp only [if_neg (by omega : ¬ (e > min l.length e ∧ min l.length e ≥ s)),
        hz, List.replicate_zero, List.append_nil]

/-- ropeLines never returns an empty list of lines. -/
theorem ropeLines_ne_nil (t : List Char) : ropeLines t ≠ [] := by
  cases t with
  | nil => simp [ropeLines]
  | cons c rest =>
    unfold ropeLines
    split
    · simp
    · split <;> simp

/-- Every char of a rope line is a char of the document. -/
theorem mem_of_mem_ropeLines (t : List Char) (l : List Char)
    (hl : l ∈ ropeLines t) (c : Char) (hc : c ∈ l) : c ∈ t := by
  induction t generalizing l with
  | nil =>
    simp [ropeLines] at hl
    subst hl
    simp at hc
  | cons a rest ih =>
    unfold ropeLines at hl
    by_cases ha : a = '\n'
    · simp only [if_pos ha] at hl
      rw [List.mem_cons] at hl
      rcases hl with hl | hl
      · subst hl
        simp at hc
        simp [hc, ha]
      · exact List.mem_cons_of_mem a (ih l hl hc)
    · simp only [if_neg ha] at hl
      cases hrl : ropeLines rest with
      | nil => exact absurd hrl (ropeLines_ne_nil rest)
      | cons l0 ls =>
        rw [hrl] at hl
        rw [List.mem_cons] at hl
        rcases hl with hl | hl
        · subst hl
          rcases hc with _ | hc
          · simp
          · exact List.mem_cons_of_mem a
              (ih l0 (by rw [hrl]; exact List.mem_cons_self l0 ls) (by assumption))
        · exact List.mem_cons_of_mem a
            (ih l (by rw [hrl]; exact List.mem_cons_of_mem l0 hl) hc)

/-- Every char of getLine belongs to the document. -/
theorem mem_of_mem_getLine (t : List Char) (i : Nat) (c : Char)
    (hc : c ∈ getLine t i) : c ∈ t := by
  unfold getLine at hc
  by_cases hi : i < (ropeLines t).length
  · rw [List.getD_eq_get _ _ hi] at hc
    exact mem_of_mem_ropeLines t _ (List.get_mem _ i hi) c hc
  · rw [List.getD_eq_default _ _ (by omega)] at hc
    simp at hc

/-- popNl removes at most the trailing newline, so keeps membership. -/
theorem mem_of_mem_popNl (l : List Char) (c : Char) (hc : c ∈ popNl l) :
    c ∈ l := by
  unfold popNl at hc
  split at hc
  · exact (List.dropLast_sublist l).subset hc
  · exact hc

/-- Every triple produced by iter_lines carries the normalized column
bounds, so its start column is at most its end column. -/
theorem iter_lines_cols (bs : BlockSelection) (trip : Nat × Nat × Nat)
    (h : trip ∈ bs.iter_lines) :
    trip.2.1 = min bs.anchor_visual_col bs.cursor_visual_col ∧
    trip.2.2 = max bs.anchor_visual_col bs.cursor_visual_col := by
  unfold BlockSelection.iter_lines at h
  simp only [List.mem_map, List.mem_range'] at h
  obtain ⟨line, _, hline⟩ := h
  subst hline
  exact ⟨rfl, rfl⟩

/-- The visual-column accumulator of char_idx_to_visual_col never
decreases. -/
theorem le_charIdxToVisualColAux (uwidth : Char → Nat) (l : List Char)
    (cidx idx cv : Nat) : cv ≤ charIdxToVisualColAux uwidth l cidx idx cv := by
  induction l generalizing idx cv with
  | nil => simp [charIdxToVisualColAux]
  | cons c rest ih =>
    unfold charIdxToVisualColAux
    split
    · exact Nat.le_refl cv
    · split
      · exact Nat.le_refl cv
      · exact Nat.le_trans (Nat.le_add_right cv _) (ih _ _)

/-- Round-tripping a char index through the visual column and back never
moves forward, whatever the character widths are. -/
theorem roundtrip_le_aux (uwidth : Char → Nat) (l : List Char)
    (i idx cv : Nat) (h : idx ≤ i) :
    visualColToCharIdxAux uwidth l
      (charIdxToVisualColAux uwidth l i idx cv) cv idx ≤ i := by
  induction l generalizing idx cv with
  | nil => simpa [charIdxToVisualColAux, visualColToCharIdxAux] using h
  | cons c rest ih =>
    unfold charIdxToVisualColAux
    by_cases hidx : idx ≥ i
    · simp only [if_pos hidx]
      unfold visualColToCharIdxAux
      simp only [ge_iff_le, le_refl, if_pos]
      exact h
    · simp only [if_neg hidx]
      by_cases hterm : c = '\n' ∨ c = '\r'
      · simp only [if_pos hterm]
        unfold visualColToCharIdxAux
        simp only [ge_iff_le, le_refl, if_pos]
        exact h
      · simp only [if_neg hterm]
        unfold visualColToCharIdxAux
        by_cases hbreak : cv ≥ charIdxToVisualColAux uwidth rest i (idx + 1)
            (cv + chWidth uwidth cv c)
        · simp only [if_pos hbreak]
          exact h
        · simp only [if_neg hbreak, if_neg hterm]
          exact ih (idx + 1) (cv + chWidth uwidth cv c) (by omega)

/-- On a prefix of clean width-1 characters, char_idx_to_visual_col
advances the accumulator by exactly the number of chars consumed. -/
theorem charIdxToVisualColAux_clean (uwidth : Char → Nat) (l : List Char)
    (i idx cv : Nat) (hle : idx ≤ i) (hlen : i - idx ≤ l.length)
    (hclean : ∀ c ∈ l.take (i - idx),
      c ≠ '\t' ∧ c ≠ '\n' ∧ c ≠ '\r' ∧ uwidth c = 1) :
    charIdxToVisualColAux uwidth l i idx cv = cv + (i - idx) := by
  induction l generalizing idx cv with
  | nil =>
    have : i - idx = 0 := by simpa using hlen
    simp [charIdxToVisualColAux, this]
  | cons c rest ih =>
    unfold charIdxToVisualColAux
    by_cases hidx : idx ≥ i
    · have : i - idx = 0 := by omega
      simp [hidx, this]
    · simp only [if_neg hidx]
      have htake : c ∈ (c :: rest).take (i - idx) := by
        have : 0 < i - idx := by omega
        cases hd : i - idx with
        | zero => omega
        | succ n => simp [hd]
      obtain ⟨ht, hn, hr, hw⟩ := hclean c htake
      have hterm : ¬ (c = '\n' ∨ c = '\r') := by simp [hn, hr]
      simp only [if_neg hterm]
      have hwc : chWidth uwidth cv c = 1 := by simp [chWidth, ht, hw]
      rw [hwc]
      have hrec := ih (idx + 1) (cv + 1) (by omega)
        (by simp at hlen ⊢; omega)
        (by
          intro x hx
          apply hclean
          have hsub : i - (idx + 1) = (i - idx) - 1 := by omega
          cases hd : i - idx with
          | zero => omega
          | succ n =>
            rw [hsub, hd] at hx
            simp only [hd, List.take_succ_cons]
            exact List.mem_cons_of_mem _ (by simpa using hx))
      rw [hrec]
      omega

/-- On a prefix of clean width-1 characters, visual_col_to_char_idx
walks exactly the demanded number of columns. -/
theorem visualColToCharIdxAux_clean (uwidth : Char → Nat) (l : List Char)
    (k idx cv : Nat) (hlen : k ≤ l.length)
    (hclean : ∀ c ∈ l.take k,
      c ≠ '\t' ∧ c ≠ '\n' ∧ c ≠ '\r' ∧ uwidth c = 1) :
    visualColToCharIdxAux uwidth l (cv + k) cv idx = idx + k := by
  induction l generalizing k idx cv with
  | nil =>
    have : k = 0 := by simpa using hlen
    simp [visualColToCharIdxAux, this]
  | cons c rest ih =>
    unfold visualColToCharIdxAux
    cases hk : k with
    | zero => simp
    | succ n =>
      subst hk
      have hcv : ¬ (cv ≥ cv + (n + 1)) := by omega
      simp only [if_neg hcv]
      obtain ⟨ht, hn, hr, hw⟩ := hclean c (by simp)
      have hterm : ¬ (c = '\n' ∨ c = '\r') := by simp [hn, hr]
      simp only [if_neg hterm]
      have hwc : chWidth uwidth cv c = 1 := by simp [chWidth, ht, hw]
      rw [hwc]
      have : cv + (n + 1) = (cv + 1) + n := by omega
      rw [this]
      have hrec := ih n (idx + 1) (cv + 1) (by simpa using hlen)
        (by
          intro x hx
          exact hclean x (by simp [hx]))
      rw [hrec]
      omega

/-- C6.  For every line whose content (the chars before the effective
length) is free of line terminators, and every char index i up to the
effective length: if the line has no tabs and every char has width 1,
the visual-column round trip returns exactly i; and for arbitrary
widths (tabs, wide or zero-width chars) it returns a value ≤ i. -/
theorem roundtrip_visual_col (uwidth : Char → Nat) (line : List Char)
    (i : Nat)
    (hterm : ∀ c ∈ line.take (effLen line), c ≠ '\n' ∧ c ≠ '\r')
    (hi : i ≤ effLen line) :
    ((∀ c ∈ line, c ≠ '\t' ∧ uwidth c = 1) →
      visual_col_to_char_idx uwidth line
        (char_idx_to_visual_col uwidth line i) = i)
    ∧ visual_col_to_char_idx uwidth line
        (char_idx_to_visual_col uwidth line i) ≤ i := by
  constructor
  · intro hclean
    unfold visual_col_to_char_idx char_idx_to_visual_col
    have hprefix : ∀ c ∈ line.take i,
        c ≠ '\t' ∧ c ≠ '\n' ∧ c ≠ '\r' ∧ uwidth c = 1 := by
      intro c hc
      have hmem : c ∈ line := List.mem_of_mem_take hc
      have hmem2 : c ∈ line.take (effLen line) := by
        exact List.mem_of_mem_take (l := line.take (effLen line)) (n := i)
          (by rwa [List.take_take, min_eq_left hi])
      exact ⟨(hclean c hmem).1, (hterm c hmem2).1, (hterm c hmem2).2,
        (hclean c hmem).2⟩
    have hlen : i - 0 ≤ line.length :=
      le_trans (by omega) (le_trans hi (effLen_le_length line))
    rw [charIdxToVisualColAux_clean uwidth line i 0 0 (Nat.zero_le i) hlen
      (by simpa using hprefix)]
    have := visualColToCharIdxAux_clean uwidth line i 0 0
      (le_trans hi (effLen_le_length line)) hprefix
    simpa using this
  · exact roundtrip_le_aux uwidth line i 0 0 (Nat.zero_le i)

theorem insert_char_virtual_space_witness :
    (insert_char ⟨[], 0, 0, (0, 0), 0, 0, none, some 5, none, none⟩ 'z').text =
      (' ' :: ' ' :: ' ' :: ' ' :: ' ' :: 'z' :: [])
    ∧ (insert_char ⟨[], 0, 0, (0, 0), 0, 0, none, some 5, none, none⟩ 'z').head = 6
    ∧ (insert_char ⟨[], 0, 0, (0, 0), 0, 0, none, some 5, none, none⟩
        'z').virtual_cursor_col = none := by
  have h := insert_char_virtual_space
    ⟨[], 0, 0, (0, 0), 0, 0, none, some 5, none, none⟩ 'z' 5 rfl (by decide)
  exact ⟨h.1.trans (by decide), h.2.1.trans (by decide), h.2.2.2⟩

theorem move_cursor_down_virtual_witness :
    (move_cursor_down
      ⟨'\n' :: 'c' :: 'd' :: 'e' :: [], 0, 0, (0, 0), 0, 0, none, some 2,
        none, none⟩).head = 3
    ∧ (move_cursor_down
        ⟨'\n' :: 'c' :: 'd' :: 'e' :: [], 0, 0, (0, 0), 0, 0, none, some 2,
          none, none⟩).virtual_cursor_col = some 2 := by
  have h := move_cursor_down_virtual
    ⟨'\n' :: 'c' :: 'd' :: 'e' :: [], 0, 0, (0, 0), 0, 0, none, some 2,
      none, none⟩ 2 rfl (by decide)
  exact ⟨h.1.trans (by decide), h.2.2⟩

/-- C5 counterexample.  On a 20-line document with the viewport height
of 20, moving the cursor down from row 17 to row 18 drives scroll_y to
1, which exceeds content_height - viewport_height = 0: follow_cursor
does not clamp scroll to [0, content_size - viewport_size]. -/
theorem scroll_not_clamped_to_content :
    (move_cursor_down
      ⟨List.replicate 19 '\n', 17, 17, (17, 0), 0, 0, none, none, none,
        none⟩).scroll_y = 1
    ∧ ¬ ((move_cursor_down
        ⟨List.replicate 19 '\n', 17, 17, (17, 0), 0, 0, none, none, none,
          none⟩).scroll_y ≤
        lenLines (List.replicate 19 '\n') - VIEWPORT_HEIGHT) := by decide

/-- C5 (amended).  After every cursor move the scroll offsets are
never negative (all arithmetic saturates at zero), but they are not
clamped to content_size - viewport_size: follow_cursor with the
padding of 2 used by every caller only guarantees that the cursor row
lies in [scroll_y, scroll_y + 20) and the cursor column in
[scroll_x, scroll_x + 80), and scroll_y may exceed
content_height - viewport_height. -/
theorem follow_cursor_keeps_cursor_visible (e : TextEditor) (x y : Nat) :
    (follow_cursor e x y 2).scroll_y ≤ y
    ∧ y < (follow_cursor e x y 2).scroll_y + VIEWPORT_HEIGHT
    ∧ (follow_cursor e x y 2).scroll_x ≤ x
    ∧ x < (follow_cursor e x y 2).scroll_x + VIEWPORT_WIDTH := by
  unfold follow_cursor VIEWPORT_HEIGHT VIEWPORT_WIDTH
  dsimp only
  split_ifs <;> omega

/-- C3 counterexample.  From the fresh editor on "ab" (cursor at offset
0, no virtual column), one right move stays entirely within real text
but records virtual column 1 instead of clearing it. -/
theorem virtual_column_right_not_cleared :
    (move_cursor_right (from_text ('a' :: 'b' :: []))).virtual_cursor_col =
      some 1
    ∧ some 1 ≠ (none : Option Nat) := by decide

/-- C3 (amended).  Horizontal edits (insert_char, and the deletes when
they actually delete) clear the virtual column; vertical moves
preserve an active virtual column; a right move always records the new
column current + 1 as the virtual column, even within real text; a
left move with an active positive virtual column decrements it, and a
left move without one leaves it cleared. -/
theorem virtual_column_discipline (e : TextEditor) (ch : Char) :
    (insert_char e ch).virtual_cursor_col = none
    ∧ (rangeCursor e.selAnchor e.head > 0 →
        (delete_char_backward e).1.virtual_cursor_col = none)
    ∧ (rangeCursor e.selAnchor e.head < e.text.length →
        (delete_char_forward e).1.virtual_cursor_col = none)
    ∧ (∀ v, e.virtual_cursor_col = some v →
        (move_cursor_up e).virtual_cursor_col = some v
        ∧ (move_cursor_down e).virtual_cursor_col = some v)
    ∧ (move_cursor_right e).virtual_cursor_col =
        some (e.virtual_cursor_col.getD
          (e.head - lineToChar e.text (charToLine e.text e.head)) + 1)
    ∧ (∀ v, e.virtual_cursor_col = some v → 0 < v →
        (move_cursor_left e).virtual_cursor_col = some (v - 1))
    ∧ (e.virtual_cursor_col = none →
        (move_cursor_left e).virtual_cursor_col = none) := by
  refine ⟨?_, ?_, ?_, ?_, ?_, ?_, ?_⟩
  · rcases hv : e.virtual_cursor_col with _ | v
    · simp [insert_char, insertCharNormal, hv]
    · simp only [insert_char, hv]
      split
      · simp
      · simp [insertCharNormal]
  · intro h
    simp only [delete_char_backward]
    rw [if_pos h]
  · intro h
    simp only [delete_char_forward]
    rw [if_pos h]
  · intro v hv
    constructor
    · simp only [move_cursor_up]
      split
      · simp [hv]
      · exact hv
    · simp only [move_cursor_down]
      split
      · simp [hv]
      · exact hv
  · simp only [move_cursor_right]
    split
    · split <;> rfl
    · rfl
  · intro v hv hpos
    simp only [move_cursor_left, hv]
    rw [if_pos hpos]
    split <;> rfl
  · intro hv
    simp only [move_cursor_left, hv, moveLeftNormal]
    split
    · simp
    · exact hv

theorem virtual_column_discipline_witness :
    (insert_char ⟨'a' :: 'b' :: [], 1, 1, (0, 1), 0, 0, none, some 2, none,
      none⟩ 'z').virtual_cursor_col = none
    ∧ (delete_char_backward ⟨'a' :: 'b' :: [], 1, 1, (0, 1), 0, 0, none,
        some 2, none, none⟩).1.virtual_cursor_col = none
    ∧ (delete_char_forward ⟨'a' :: 'b' :: [], 1, 1, (0, 1), 0, 0, none,
        some 2, none, none⟩).1.virtual_cursor_col = none
    ∧ (move_cursor_up ⟨'a' :: 'b' :: [], 1, 1, (0, 1), 0, 0, none, some 2,
        none, none⟩).virtual_cursor_col = some 2
    ∧ (move_cursor_down ⟨'a' :: 'b' :: [], 1, 1, (0, 1), 0, 0, none, some 2,
        none, none⟩).virtual_cursor_col = some 2
    ∧ (move_cursor_right ⟨'a' :: 'b' :: [], 1, 1, (0, 1), 0, 0, none, some 2,
        none, none⟩).virtual_cursor_col = some 3
    ∧ (move_cursor_left ⟨'a' :: 'b' :: [], 1, 1, (0, 1), 0, 0, none, some 2,
        none, none⟩).virtual_cursor_col = some 1
    ∧ (move_cursor_left (from_text ('a' :: 'b' :: []))).virtual_cursor_col =
        none := by
  have h := virtual_column_discipline
    ⟨'a' :: 'b' :: [], 1, 1, (0, 1), 0, 0, none, some 2, none, none⟩ 'z'
  have h0 := virtual_column_discipline (from_text ('a' :: 'b' :: [])) 'z'
  exact ⟨h.1, h.2.1 (by decide), h.2.2.1 (by decide),
    (h.2.2.2.1 2 rfl).1, (h.2.2.2.1 2 rfl).2,
    h.2.2.2.2.1.trans (by decide),
    h.2.2.2.2.2.1 2 rfl (by decide), h0.2.2.2.2.2.2 rfl⟩

/-- C9.  The defensive claim fails in the empty-range fallback of
BlockSelection::to_selection: with the two-char one-line document "ab"
and a stale block selection whose anchor and cursor sit on line 2, the
per-line loop produces no range, and the fallback calls
rope.line_to_char(2) with 2 > len_lines = 1, which panics in ropey
(modelled by none) instead of degrading to a safe no-op. -/
theorem to_selection_fallback_panics :
    to_selection uwOne ('a' :: 'b' :: []) ⟨⟨2, 0⟩, ⟨2, 0⟩, 0, 0⟩ = none := by
  decide

/-- C2 counterexample.  On the document "ab\ncd\n", the block selection
anchored at grid (0,0) with cursor at grid (1,1) (visual columns 0 and
1) does not copy "ab\ncd": the column bounds act as a half-open range,
so only one column is copied. -/
theorem copy_block_2x2_cex :
    copy_selection_block uwOne ("ab\ncd\n".toList) ⟨⟨0, 0⟩, ⟨1, 1⟩, 0, 1⟩ ≠
      "ab\ncd".toList := by decide

/-- C2 (amended).  copy_selection on "ab\ncd\n" with the block from
(0,0) to (1,1) produces "a\nc" (line bounds inclusive, column bounds
half-open); the clipboard text "ab\ncd" is produced when the cursor
stands at visual column 2. -/
theorem copy_block_2x2 :
    copy_selection_block uwOne ("ab\ncd\n".toList) ⟨⟨0, 0⟩, ⟨1, 1⟩, 0, 1⟩ =
      "a\nc".toList
    ∧ copy_selection_block uwOne ("ab\ncd\n".toList) ⟨⟨0, 0⟩, ⟨1, 2⟩, 0, 2⟩ =
      "ab\ncd".toList := by decide

/-- C1 counterexample.  Copying the block with visual columns 2..4 on
the one-line document "a" yields the single string consisting of one
space, whose length 1 differs from maxVisualCol - minVisualCol = 2:
a line lying entirely before the rectangle's column range is not
padded to the rectangle width. -/
theorem copy_block_rectangle_cex :
    copy_selection_block uwOne ('a' :: []) ⟨⟨0, 1⟩, ⟨0, 1⟩, 2, 4⟩ =
      (' ' :: [])
    ∧ (' ' :: []).length ≠ max 2 4 - min 2 4 := by decide

/-- C1 (amended).  For a document without tabs or wide chars the block
copy text is one string per line of the normalized rectangle, joined
by newlines; a line whose length reaches minVisualCol is cropped to
the rectangle and right-padded with spaces to exactly
maxVisualCol - minVisualCol characters, while a line shorter than
minVisualCol (or a missing line) instead contributes
minVisualCol - length space characters. -/
theorem copy_block_rectangle (uwidth : Char → Nat) (t : List Char)
    (bs : BlockSelection)
    (hclean : ∀ c ∈ t, c ≠ '\t' ∧ uwidth c = 1) :
    copy_selection_block uwidth t bs =
      List.intercalate ['\n']
        (bs.iter_lines.map (fun trip =>
          let lt := if trip.1 < lenLines t then popNl (getLine t trip.1) else []
          if lt.length < trip.2.1 then
            List.replicate (trip.2.1 - lt.length) ' '
          else
            (lt.drop trip.2.1).take (trip.2.2 - trip.2.1) ++
              List.replicate (trip.2.2 - min lt.length trip.2.2) ' '))
    ∧ ∀ trip ∈ bs.iter_lines, ∀ lt : List Char,
        (∀ c ∈ lt, c ≠ '\t' ∧ uwidth c = 1) → trip.2.1 ≤ lt.length →
        (copyBlockLine uwidth trip.2.1 trip.2.2 lt).length =
          trip.2.2 - trip.2.1 := by
  constructor
  · unfold copy_selection_block
    congr 1
    apply List.map_congr_left
    intro trip htrip
    obtain ⟨hs, he⟩ := iter_lines_cols bs trip htrip
    have hse : trip.2.1 ≤ trip.2.2 := by
      rw [hs, he]
      exact min_le_max
    dsimp only
    apply copyBlockLine_clean uwidth _ _ _ hse
    intro c hc
    by_cases hlt : trip.1 < lenLines t
    · rw [if_pos hlt] at hc
      exact hclean c (mem_of_mem_getLine t trip.1 c (mem_of_mem_popNl _ c hc))
    · rw [if_neg hlt] at hc
      simp at hc
  · intro trip htrip lt hcl hlen
    obtain ⟨hs, he⟩ := iter_lines_cols bs trip htrip
    have hse : trip.2.1 ≤ trip.2.2 := by
      rw [hs, he]
      exact min_le_max
    rw [copyBlockLine_clean uwidth _ _ lt hse hcl]
    rw [if_neg (by omega)]
    simp only [List.length_append, List.length_take, List.length_drop,
      List.length_replicate]
    omega

theorem copy_block_rectangle_witness :
    (copyBlockLine uwOne 0 2 ('a' :: 'b' :: [])).length = 2 - 0 := by
  have h := copy_block_rectangle uwOne ("ab\ncd\n".toList)
    ⟨⟨0, 0⟩, ⟨1, 2⟩, 0, 2⟩ (by decide)
  exact h.2 (0, 0, 2) (by decide) ('a' :: 'b' :: []) (by decide) (by decide)

theorem cutStep_length (uwidth : Char → Nat) (s e : Nat)
    (lines : List (List Char)) (i : Nat) :
    (cutStep uwidth s e lines i).length = lines.length := by
  unfold cutStep
  cases h : lines.get? i
  · rfl
  · dsimp only
    split
    · exact List.length_set lines i _
    · rfl

theorem cutStep_getD_ne (uwidth : Char → Nat) (s e : Nat)
    (lines : List (List Char)) (i j : Nat) (hne : j ≠ i) :
    (cutStep uwidth s e lines i).getD j [] = lines.getD j [] := by
  unfold cutStep
  cases h : lines.get? i
  · rfl
  · dsimp only
    split
    · simp only [List.getD_eq_getElem?_getD]
      rw [List.getElem?_set_ne (Ne.symm hne)]
    · rfl

theorem cutStep_getD_lt (uwidth : Char → Nat) (s e : Nat)
    (lines : List (List Char)) (i : Nat) (hi : i < lines.length) :
    (cutStep uwidth s e lines i).getD i [] =
      cutLineRange uwidth s e (lines.getD i []) := by
  have hget := List.get?_eq_get hi
  have hgetD : lines.getD i [] = lines.get ⟨i, hi⟩ := by
    simp only [List.getD_eq_getElem?_getD, ← List.get?_eq_getElem?, hget,
      Option.getD_some]
  unfold cutStep cutLineRange
  rw [hget]
  dsimp only
  rw [hgetD]
  split
  · simp only [List.getD_eq_getElem?_getD,
      List.getElem?_set_eq_of_lt _ hi, Option.getD_some]
  · exact hgetD

/-- Folding the cut step over pairwise distinct line indices rewrites
each in-range indexed line exactly once, from its original value. -/
theorem foldl_cutStep_getD (uwidth : Char → Nat) (s e : Nat)
    (idxs : List Nat) :
    ∀ (lines : List (List Char)) (j : Nat), idxs.Nodup →
      j < lines.length →
      (idxs.foldl (fun ls i => cutStep uwidth s e ls i) lines).getD j [] =
        if j ∈ idxs then cutLineRange uwidth s e (lines.getD j [])
        else lines.getD j [] := by
  induction idxs with
  | nil =>
    intro lines j _ _
    simp
  | cons i rest ih =>
    intro lines j hnd hj
    rw [List.foldl_cons]
    have hnd' : rest.Nodup := hnd.of_cons
    have hni : i ∉ rest := (List.nodup_cons.mp hnd).1
    have hlen : j < (cutStep uwidth s e lines i).length := by
      rw [cutStep_length]
      exact hj
    rw [ih _ j hnd' hlen]
    by_cases hij : j = i
    · subst hij
      rw [if_neg hni, if_pos (List.mem_cons_self j rest)]
      exact cutStep_getD_lt uwidth s e lines j hj
    · rw [cutStep_getD_ne uwidth s e lines i j hij]
      by_cases hjr : j ∈ rest
      · rw [if_pos hjr, if_pos (List.mem_cons_of_mem i hjr)]
      · rw [if_neg hjr, if_neg (by simp [hij, hjr])]

theorem foldl_cutStep_length (uwidth : Char → Nat) (s e : Nat)
    (idxs : List Nat) (lines : List (List Char)) :
    (idxs.foldl (fun ls i => cutStep uwidth s e ls i) lines).length =
      lines.length := by
  induction idxs generalizing lines with
  | nil => rfl
  | cons i rest ih => rw [List.foldl_cons, ih, cutStep_length]

/-- C4 counterexample.  Cutting the block with visual columns 0..2 on
the document "abc" leaves the text "c": the selected chars are removed
outright — the line length shrinks from 3 to 1 and the text differs
from the space-replacement "  c" the claim describes. -/
theorem cut_selection_block_removes_cex :
    cut_selection_block_text uwOne ('a' :: 'b' :: 'c' :: [])
      ⟨⟨0, 0⟩, ⟨0, 2⟩, 0, 2⟩ = ('c' :: [])
    ∧ ('c' :: []).length ≠ ('a' :: 'b' :: 'c' :: []).length
    ∧ cut_selection_block_text uwOne ('a' :: 'b' :: 'c' :: [])
        ⟨⟨0, 0⟩, ⟨0, 2⟩, 0, 2⟩ ≠ (' ' :: ' ' :: 'c' :: []) := by decide

/-- C4 (amended).  The block branch of cut_selection removes the
selected characters instead of replacing them with spaces: every line
of the rectangle has the char range of the two visual bounds deleted
(shifting the rest of the line left), lines outside the rectangle and
out-of-range indices are untouched, and the line count is kept. -/
theorem cut_selection_block_removes (uwidth : Char → Nat) (t : List Char)
    (bs : BlockSelection) :
    (cut_selection_block_lines uwidth t bs).length = (rustLines t).length
    ∧ ∀ j, j < (rustLines t).length →
      (cut_selection_block_lines uwidth t bs).getD j [] =
        if min bs.anchor.line bs.cursor.line ≤ j ∧
            j ≤ max bs.anchor.line bs.cursor.line then
          cutLineRange uwidth
            (min bs.anchor_visual_col bs.cursor_visual_col)
            (max bs.anchor_visual_col bs.cursor_visual_col)
            ((rustLines t).getD j [])
        else (rustLines t).getD j [] := by
  have hfold : cut_selection_block_lines uwidth t bs =
      ((List.range' (min bs.anchor.line bs.cursor.line)
          (max bs.anchor.line bs.cursor.line -
            min bs.anchor.line bs.cursor.line + 1)).reverse).foldl
        (fun ls i => cutStep uwidth
          (min bs.anchor_visual_col bs.cursor_visual_col)
          (max bs.anchor_visual_col bs.cursor_visual_col) ls i)
        (rustLines t) := by
    unfold cut_selection_block_lines BlockSelection.iter_lines
      BlockSelection.normalized
    rw [← List.map_reverse, List.foldl_map]
  constructor
  · rw [hfold]
    exact foldl_cutStep_length _ _ _ _ _
  · intro j hj
    rw [hfold]
    rw [foldl_cutStep_getD _ _ _ _ _ j
      ((List.nodup_reverse).mpr (List.nodup_range' _ _)) hj]
    congr 1
    simp only [List.mem_reverse, List.mem_range']
    rw [eq_iff_iff]
    constructor
    · rintro ⟨i, hi, hji⟩
      omega
    · rintro ⟨h1, h2⟩
      exact ⟨j - min bs.anchor.line bs.cursor.line, by omega, by omega⟩

theorem cut_selection_block_removes_witness :
    (cut_selection_block_lines uwOne ("ab\ncd\n".toList)
      ⟨⟨0, 0⟩, ⟨1, 1⟩, 0, 1⟩).getD 1 [] = ('d' :: []) := by
  have h := (cut_selection_block_removes uwOne ("ab\ncd\n".toList)
    ⟨⟨0, 0⟩, ⟨1, 1⟩, 0, 1⟩).2 1 (by decide)
  exact h.trans (by decide)

theorem roundtrip_visual_col_witness :
    visual_col_to_char_idx uwOne ('a' :: 'b' :: '\n' :: [])
      (char_idx_to_visual_col uwOne ('a' :: 'b' :: '\n' :: []) 2) = 2
    ∧ visual_col_to_char_idx uwOne ('a' :: 'b' :: '\n' :: [])
        (char_idx_to_visual_col uwOne ('a' :: 'b' :: '\n' :: []) 2) ≤ 2 := by
  have h := roundtrip_visual_col uwOne ('a' :: 'b' :: '\n' :: []) 2
    (by decide) (by decide)
  exact ⟨h.1 (by decide), h.2⟩

end Snyfter
